import Mathlib

/-!
Verification of the integer-interval algebra of `math/src/set/ordered_integer_set.rs`
and `math/src/set/ordered_integer_set/arithmetic.rs`.

The generic scalar `E : Integer + Copy` is instantiated with `Int` (the code is
generic over arbitrary-precision integers; all arithmetic is exact, no overflow).
The Rust field `end` is a Lean keyword, so the field is named `stop` here.
-/

set_option maxHeartbeats 1000000
set_option linter.unnecessarySeqFocus false

/-- `ContiguousIntegerSet` (ordered_integer_set.rs, lines 17-21):
represents the set of integers in `[start, end]`.  The Rust `end` field is
called `stop` because `end` is a Lean keyword. -/
structure ContiguousIntegerSet where
  start : Int
  stop : Int
deriving DecidableEq, Repr

namespace ContiguousIntegerSet

/-- `Set::is_empty` (lines 37-39): `self.start > self.end`. -/
def is_empty (s : ContiguousIntegerSet) : Bool :=
  s.start > s.stop

/-- `Set::contains` (lines 41-43): `item >= self.start && item <= self.end`. -/
def contains (s : ContiguousIntegerSet) (item : Int) : Bool :=
  item ≥ s.start && item ≤ s.stop

/-- `Set::intersect` (lines 45-51). -/
def intersect (s other : ContiguousIntegerSet) : Option ContiguousIntegerSet :=
  if s.is_empty || other.is_empty || other.stop < s.start || other.start > s.stop then
    none
  else
    some ⟨max s.start other.start, min s.stop other.stop⟩

/-- `Finite::size` (lines 125-133): `0` when empty, else `end - start + 1`
converted to `usize` (the conversion is exact here since the value is positive). -/
def size (s : ContiguousIntegerSet) : Nat :=
  if s.is_empty then 0 else (s.stop - s.start + 1).toNat

/-- `Coalesce<Self>::coalesce_with` (lines 138-154). -/
def coalesce_with (s other : ContiguousIntegerSet) : Option ContiguousIntegerSet :=
  if s.is_empty && other.is_empty then none
  else if s.is_empty then some other
  else if other.is_empty then some s
  else if s.start > other.stop + 1 || s.stop + 1 < other.start then none
  else some ⟨min s.start other.start, max s.stop other.stop⟩

/-- `Coalesce<E>::coalesce_with` (lines 156-168), coalescing with a single point. -/
def coalesce_with_point (s : ContiguousIntegerSet) (other : Int) : Option ContiguousIntegerSet :=
  if s.is_empty then some ⟨other, other⟩
  else if s.start > other + 1 || s.stop + 1 < other then none
  else some ⟨min s.start other, max s.stop other⟩

/-- `Slicing<&ContiguousIntegerSet, Option<ContiguousIntegerSet>> for Range<usize>`
(lines 77-86): slice by rank range `lo..hi`. -/
def slice (s : ContiguousIntegerSet) (lo hi : Nat) : Option ContiguousIntegerSet :=
  if lo ≥ hi ∨ lo ≥ s.size then none
  else some ⟨s.start + lo, s.start + hi - 1⟩

end ContiguousIntegerSet

/-- `ContiguousIntegerSetIter` (lines 178-181). -/
structure ContiguousIntegerSetIter where
  contiguous_integer_set : ContiguousIntegerSet
  current : Int

namespace ContiguousIntegerSetIter

/-- `From<ContiguousIntegerSet>` (lines 183-190): the iterator starts with
`current = E::zero()`. -/
def fromSet (s : ContiguousIntegerSet) : ContiguousIntegerSetIter :=
  ⟨s, 0⟩

/-- `Iterator::next` (lines 192-203): `None` once `current > end`; otherwise
yield `current` and advance by one. -/
def next (it : ContiguousIntegerSetIter) : Option (Int × ContiguousIntegerSetIter) :=
  if it.current > it.contiguous_integer_set.stop then none
  else some (it.current, ⟨it.contiguous_integer_set, it.current + 1⟩)

/-- Number of elements the iterator will still yield; used as structural fuel so
that the full yielded sequence is a computable function of the state. -/
def count (it : ContiguousIntegerSetIter) : Nat :=
  (it.contiguous_integer_set.stop + 1 - it.current).toNat

/-- Run `next` at most `fuel` times, collecting the yielded values. -/
def toListAux : Nat → ContiguousIntegerSetIter → List Int
  | 0, _ => []
  | fuel + 1, it =>
    match it.next with
    | none => []
    | some (v, it') => v :: toListAux fuel it'

/-- The complete sequence yielded by running the iterator to exhaustion
(`count` steps always suffice). -/
def toList (it : ContiguousIntegerSetIter) : List Int :=
  toListAux it.count it

end ContiguousIntegerSetIter

/-- `ToIterator::to_iter` for `ContiguousIntegerSet` (lines 170-174). -/
def ContiguousIntegerSet.to_iter (s : ContiguousIntegerSet) : ContiguousIntegerSetIter :=
  ContiguousIntegerSetIter.fromSet s

/-- The ascending list `s, s+1, ..., s+n-1` (`n` integers starting at `s`);
used to describe iterator output and rank arithmetic. -/
def intIter (s : Int) : Nat → List Int
  | 0 => []
  | n + 1 => s :: intIter (s + 1) n

/-- `OrderedIntegerSet` (lines 205-208): an ordered sequence of contiguous sets. -/
structure OrderedIntegerSet where
  intervals : List ContiguousIntegerSet
deriving DecidableEq, Repr

/-- Insert one interval into a list sorted by `start` (auxiliary to the
spec-modelled sort). -/
def insertByStart (a : ContiguousIntegerSet) : List ContiguousIntegerSet → List ContiguousIntegerSet
  | [] => [a]
  | b :: rest => if a.start ≤ b.start then a :: b :: rest else b :: insertByStart a rest

/-- Insertion sort by interval `start` (auxiliary to the spec-modelled
canonicalization). -/
def sortByStart : List ContiguousIntegerSet → List ContiguousIntegerSet
  | [] => []
  | a :: rest => insertByStart a (sortByStart rest)

/-- Merge a sorted run: keep coalescing the current interval with the next
while `coalesce_with` succeeds (auxiliary to the spec-modelled
canonicalization). -/
def mergeRun (cur : ContiguousIntegerSet) : List ContiguousIntegerSet → List ContiguousIntegerSet
  | [] => [cur]
  | i :: rest =>
    match cur.coalesce_with i with
    | some m => mergeRun m rest
    | none => cur :: mergeRun i rest

/-- Modelled from the spec: `Vec<ContiguousIntegerSet>::coalesce_intervals_inplace` /
`into_coalesced` from `math/src/interval/traits.rs`, which is not under `src/`.
Spec §4.2: canonicalization must "(a) drop empties, (b) sort by start,
(c) repeatedly merge neighbors while `coalesce_with` succeeds". -/
def coalesceIntervalsList (l : List ContiguousIntegerSet) : List ContiguousIntegerSet :=
  match sortByStart (l.filter (fun i => !i.is_empty)) with
  | [] => []
  | a :: rest => mergeRun a rest

namespace OrderedIntegerSet

/-- `OrderedIntegerSet::new` (lines 211-215). -/
def new : OrderedIntegerSet := ⟨[]⟩

/-- `From<Vec<ContiguousIntegerSet>>` (lines 314-320): wrap and coalesce. -/
def fromVec (v : List ContiguousIntegerSet) : OrderedIntegerSet :=
  ⟨coalesceIntervalsList v⟩

/-- `OrderedIntegerSet::from_slice` (lines 256-263): build an interval from each
pair, then coalesce. -/
def from_slice (pairs : List (Int × Int)) : OrderedIntegerSet :=
  fromVec (pairs.map (fun p => ⟨p.1, p.2⟩))

/-- `OrderedIntegerSet::from_contiguous_integer_sets` (lines 265-269):
coalesce the given list. -/
def from_contiguous_integer_sets (sets : List ContiguousIntegerSet) : OrderedIntegerSet :=
  ⟨coalesceIntervalsList sets⟩

/-- `into_non_empty_intervals` / `remove_empty_intervals` (lines 281-288). -/
def into_non_empty_intervals (s : OrderedIntegerSet) : OrderedIntegerSet :=
  ⟨s.intervals.filter (fun i => !i.is_empty)⟩

/-- `Finite::size` (lines 307-312): sum of the member sizes. -/
def size (s : OrderedIntegerSet) : Nat :=
  (s.intervals.map (fun i => i.size)).sum

/-- `Set::contains` (lines 327-339): check the first and last interval first,
then count the intervals containing the item. -/
def contains (s : OrderedIntegerSet) (item : Int) : Bool :=
  if (s.intervals.head?.map (fun i => i.contains item)).getD false then true
  else if (s.intervals.getLast?.map (fun i => i.contains item)).getD false then true
  else decide ((s.intervals.filter (fun i => i.contains item)).length > 0)

/-- Inner loop of `Set::intersect` (lines 342-352): for one interval of `self`,
collect its non-empty intersections with every interval of `other`, in order. -/
def intersectAux : List ContiguousIntegerSet → List ContiguousIntegerSet → List ContiguousIntegerSet
  | [], _ => []
  | i :: rest, other => other.filterMap (fun j => i.intersect j) ++ intersectAux rest other

/-- `Set::intersect` (lines 342-352): pairwise intersections, coalesced. -/
def intersect (s other : OrderedIntegerSet) : OrderedIntegerSet :=
  from_contiguous_integer_sets (intersectAux s.intervals other.intervals)

end OrderedIntegerSet

/-- Canonical-form predicate, first half: no empty interval in the sequence. -/
def allNonemptyB (l : List ContiguousIntegerSet) : Bool :=
  l.all (fun i => !i.is_empty)

/-- Canonical-form predicate, second half: consecutive intervals satisfy
`end_i + 1 < start_{i+1}` (sorted with genuine gaps). -/
def chainGapsB : List ContiguousIntegerSet → Bool
  | [] => true
  | [_] => true
  | a :: b :: rest => (decide (a.stop + 1 < b.start)) && chainGapsB (b :: rest)

/-- Canonical form of a `RangeSet` (spec §3): sorted ascending, no two adjacent
intervals coalesceable, no empty interval. -/
def OrderedIntegerSet.canonicalB (s : OrderedIntegerSet) : Bool :=
  allNonemptyB s.intervals && chainGapsB s.intervals

/-- Sortedness by `start` (auxiliary). -/
def sortedByStartB : List ContiguousIntegerSet → Bool
  | [] => true
  | [_] => true
  | a :: b :: rest => (decide (a.start ≤ b.start)) && sortedByStartB (b :: rest)

/-- `Sub<&ContiguousIntegerSet> for ContiguousIntegerSet` (arithmetic.rs,
lines 11-28): `[a,b] - [c,d]`. -/
def ContiguousIntegerSet.sub (s rhs : ContiguousIntegerSet) : OrderedIntegerSet :=
  if s.is_empty || rhs.is_empty then OrderedIntegerSet.fromVec [s]
  else
    (OrderedIntegerSet.fromVec
      [⟨s.start, min s.stop (rhs.start - 1)⟩,
       ⟨max (rhs.stop + 1) s.start, s.stop⟩]).into_non_empty_intervals

namespace OrderedIntegerSet

/-- Body of `Sub<&ContiguousIntegerSet> for OrderedIntegerSet` (arithmetic.rs,
lines 39-47): concatenate the per-interval differences, in order. -/
def subCAux : List ContiguousIntegerSet → ContiguousIntegerSet → List ContiguousIntegerSet
  | [], _ => []
  | i :: rest, rhs => (i.sub rhs).intervals ++ subCAux rest rhs

/-- `Sub<&ContiguousIntegerSet> for OrderedIntegerSet` (arithmetic.rs,
lines 39-47): flat-map the single-interval subtraction, then coalesce. -/
def subContiguous (s : OrderedIntegerSet) (rhs : ContiguousIntegerSet) : OrderedIntegerSet :=
  fromVec (subCAux s.intervals rhs)

/-- Inner cursor loop of `Sub<&OrderedIntegerSet> for OrderedIntegerSet`
(arithmetic.rs, lines 102-108): subtract and advance past right-hand intervals
whose `end` is within the current left interval, then subtract (without
advancing) the one interval that straddles the right edge.  Returns the new
difference together with the remaining right-hand suffix (the cursor). -/
def subtractLoop (d : OrderedIntegerSet) :
    List ContiguousIntegerSet → Int → OrderedIntegerSet × List ContiguousIntegerSet
  | [], _ => (d, [])
  | r :: rs, istop =>
    if r.stop ≤ istop then subtractLoop (d.subContiguous r) rs istop
    else if r.start ≤ istop then (d.subContiguous r, r :: rs)
    else (d, r :: rs)

/-- Outer loop of `Sub<&OrderedIntegerSet> for OrderedIntegerSet`
(arithmetic.rs, lines 97-112): for each left interval, advance the cursor past
right-hand intervals ending strictly before it (line 99-101), run the inner
loop, and push the resulting intervals. -/
def subAux : List ContiguousIntegerSet → List ContiguousIntegerSet → List ContiguousIntegerSet
  | [], _ => []
  | interval :: rest, rhs =>
    let rhs1 := rhs.dropWhile (fun r => r.stop < interval.start)
    let p := subtractLoop (from_contiguous_integer_sets [interval]) rhs1 interval.stop
    p.1.intervals ++ subAux rest p.2

/-- `Sub<&OrderedIntegerSet> for OrderedIntegerSet` (arithmetic.rs,
lines 91-115): linear sweep with a cursor into the right operand. -/
def sub (s other : OrderedIntegerSet) : OrderedIntegerSet :=
  from_contiguous_integer_sets (subAux s.intervals other.intervals)

/-- Loop of `Slicing<&OrderedIntegerSet, OrderedIntegerSet> for Range<usize>`
(ordered_integer_set.rs, lines 96-120): walk the intervals keeping a `skip`
count and a `remaining` count.  Note the loop reads the interval size as
`end - start + 1` directly (line 100), without the emptiness check of
`Finite::size`. -/
def sliceLoop : List ContiguousIntegerSet → Nat → Nat → List ContiguousIntegerSet
  | [], _, _ => []
  | interval :: rest, skip, remaining =>
    if remaining = 0 then []
    else
      let sz := (interval.stop - interval.start + 1).toNat
      if skip > 0 then
        if skip ≥ sz then sliceLoop rest (skip - sz) remaining
        else
          let stp := min (skip + remaining) sz
          (match interval.slice skip stp with
           | some s => [s]
           | none => []) ++ sliceLoop rest 0 (remaining - (stp - skip))
      else
        let increase := min remaining sz
        (match interval.slice 0 increase with
         | some s => [s]
         | none => []) ++ sliceLoop rest 0 (remaining - increase)

/-- `Slicing<&OrderedIntegerSet, OrderedIntegerSet> for Range<usize>`
(lines 88-123): slice by rank range `lo..hi`. -/
def slice (s : OrderedIntegerSet) (lo hi : Nat) : OrderedIntegerSet :=
  if lo ≥ hi then new
  else from_contiguous_integer_sets (sliceLoop s.intervals lo (hi - lo))

/-- General scan of `Collecting::collect` (lines 395-428): insert a singleton
before the first interval with `item + 1 < start`; otherwise coalesce `item`
into the first interval that accepts it, then merge that interval with its
successor when they have become coalesceable (the
`CollectedPendingReplaceAndRemoveNext` case); if no interval collects the item,
push a singleton at the end (`NotCollected`). -/
def collectScan : List ContiguousIntegerSet → Int → List ContiguousIntegerSet
  | [], item => [⟨item, item⟩]
  | interval :: rest, item =>
    if item + 1 < interval.start then ⟨item, item⟩ :: interval :: rest
    else
      match interval.coalesce_with_point item with
      | some newInterval =>
        match rest with
        | [] => [newInterval]
        | next :: rest2 =>
          match newInterval.coalesce_with next with
          | some merged => merged :: rest2
          | none => newInterval :: rest
      | none => interval :: collectScan rest item

/-- `Collecting::collect` (lines 374-430): fast path against the last interval
(lines 386-394), then the general scan. -/
def collect (s : OrderedIntegerSet) (item : Int) : OrderedIntegerSet :=
  match s.intervals.getLast? with
  | some last_interval =>
    if item > last_interval.stop + 1 then ⟨s.intervals ++ [⟨item, item⟩]⟩
    else
      match last_interval.coalesce_with_point item with
      | some interval => ⟨s.intervals.dropLast ++ [interval]⟩
      | none => ⟨collectScan s.intervals item⟩
  | none => ⟨collectScan s.intervals item⟩

/-- Per-interval output of `IntegerSetIter` (lines 448-466): from a fresh
iterator (`to_iter`, lines 468-472), interval `i` contributes
`i.start + 0, ..., i.start + (size-1)` (empty intervals contribute nothing,
line 455), and the intervals are consumed in order. -/
def iterConcat : List ContiguousIntegerSet → List Int
  | [] => []
  | i :: rest => intIter i.start i.size ++ iterConcat rest

/-- The full ascending sequence yielded by `to_iter` on an `OrderedIntegerSet`
(lines 448-472). -/
def toIterList (s : OrderedIntegerSet) : List Int :=
  iterConcat s.intervals

end OrderedIntegerSet

/-! ### Basic denotation lemmas -/

/-- `x` is an element denoted by some interval of the list. -/
def memList (x : Int) (l : List ContiguousIntegerSet) : Prop :=
  ∃ i ∈ l, i.contains x = true

/-- Every interval of the list is non-empty. -/
def allNonempty (l : List ContiguousIntegerSet) : Prop :=
  ∀ i ∈ l, i.is_empty = false

theorem contains_iff {s : ContiguousIntegerSet} {x : Int} :
    s.contains x = true ↔ s.start ≤ x ∧ x ≤ s.stop := by
  simp [ContiguousIntegerSet.contains]

theorem is_empty_iff {s : ContiguousIntegerSet} :
    s.is_empty = true ↔ s.stop < s.start := by
  simp [ContiguousIntegerSet.is_empty]

theorem is_empty_false_iff {s : ContiguousIntegerSet} :
    s.is_empty = false ↔ s.start ≤ s.stop := by
  simp [ContiguousIntegerSet.is_empty]

theorem empty_not_contains {s : ContiguousIntegerSet} (h : s.is_empty = true) (x : Int) :
    s.contains x = false := by
  rw [is_empty_iff] at h
  cases hc : s.contains x with
  | false => rfl
  | true => rw [contains_iff] at hc; omega

theorem memList_nil {x : Int} : ¬ memList x [] := by
  simp [memList]

theorem memList_cons {x : Int} {a : ContiguousIntegerSet} {l : List ContiguousIntegerSet} :
    memList x (a :: l) ↔ a.contains x = true ∨ memList x l := by
  simp [memList]

theorem memList_append {x : Int} {l₁ l₂ : List ContiguousIntegerSet} :
    memList x (l₁ ++ l₂) ↔ memList x l₁ ∨ memList x l₂ := by
  simp [memList, or_and_right, exists_or]

/-- A successful `coalesce_with` denotes exactly the union of the operands. -/
theorem coalesce_with_mem {a b m : ContiguousIntegerSet}
    (h : a.coalesce_with b = some m) (x : Int) :
    m.contains x = true ↔ a.contains x = true ∨ b.contains x = true := by
  unfold ContiguousIntegerSet.coalesce_with at h
  by_cases hea : a.is_empty <;> by_cases heb : b.is_empty <;>
    simp [hea, heb] at h
  · subst h
    rw [empty_not_contains hea]
    simp
  · subst h
    rw [empty_not_contains heb]
    simp
  · rcases h with ⟨⟨h1, h2⟩, h3⟩
    subst h3
    rw [Bool.not_eq_true, is_empty_false_iff] at hea heb
    simp only [contains_iff]
    constructor
    · intro hx
      rcases hx with ⟨hx1, hx2⟩
      omega
    · intro hx
      constructor <;> omega

/-- A successful coalesce of two intervals, at least one non-empty, is non-empty. -/
theorem coalesce_with_nonempty {a b m : ContiguousIntegerSet}
    (h : a.coalesce_with b = some m) : m.is_empty = false := by
  unfold ContiguousIntegerSet.coalesce_with at h
  by_cases hea : a.is_empty <;> by_cases heb : b.is_empty <;>
    simp [hea, heb] at h
  · subst h; simpa using heb
  · subst h; simpa using hea
  · rcases h with ⟨⟨h1, h2⟩, h3⟩
    subst h3
    rw [Bool.not_eq_true, is_empty_false_iff] at hea heb
    rw [is_empty_false_iff]
    simp only
    omega

/-- `coalesce_with` of two sorted non-empty intervals fails exactly on a gap. -/
theorem coalesce_with_none_of_gap {a b : ContiguousIntegerSet}
    (hea : a.is_empty = false) (heb : b.is_empty = false)
    (hgap : a.stop + 1 < b.start) : a.coalesce_with b = none := by
  unfold ContiguousIntegerSet.coalesce_with
  simp [hea, heb]
  omega

theorem memList_insertByStart {x : Int} {a : ContiguousIntegerSet}
    {l : List ContiguousIntegerSet} :
    memList x (insertByStart a l) ↔ a.contains x = true ∨ memList x l := by
  induction l with
  | nil => simp [insertByStart, memList_cons, memList_nil]
  | cons b rest ih =>
    unfold insertByStart
    by_cases h : a.start ≤ b.start <;> simp [h, memList_cons, ih] <;> tauto

theorem memList_sortByStart {x : Int} {l : List ContiguousIntegerSet} :
    memList x (sortByStart l) ↔ memList x l := by
  induction l with
  | nil => simp [sortByStart]
  | cons a rest ih => simp [sortByStart, memList_insertByStart, memList_cons, ih]

theorem memList_mergeRun {x : Int} {cur : ContiguousIntegerSet}
    {l : List ContiguousIntegerSet} :
    memList x (mergeRun cur l) ↔ cur.contains x = true ∨ memList x l := by
  induction l generalizing cur with
  | nil => simp [mergeRun, memList_cons, memList_nil]
  | cons i rest ih =>
    unfold mergeRun
    cases hm : cur.coalesce_with i with
    | some m =>
      rw [ih, coalesce_with_mem hm, memList_cons]
      tauto
    | none =>
      rw [memList_cons, ih, memList_cons]

theorem memList_filter_nonempty {x : Int} {l : List ContiguousIntegerSet} :
    memList x (l.filter (fun i => !i.is_empty)) ↔ memList x l := by
  induction l with
  | nil => simp [memList]
  | cons a rest ih =>
    rw [List.filter_cons]
    by_cases h : a.is_empty
    · rw [memList_cons]
      simp only [h]
      simpa [empty_not_contains h x] using ih
    · simp only [Bool.not_eq_true] at h
      simp only [h]
      simp only [Bool.not_false, if_true, memList_cons, ih]

theorem memList_coalesceIntervalsList {x : Int} {l : List ContiguousIntegerSet} :
    memList x (coalesceIntervalsList l) ↔ memList x l := by
  unfold coalesceIntervalsList
  cases hs : sortByStart (l.filter (fun i => !i.is_empty)) with
  | nil =>
    have : memList x (sortByStart (l.filter (fun i => !i.is_empty))) ↔ memList x l := by
      rw [memList_sortByStart, memList_filter_nonempty]
    rw [hs] at this
    simpa [memList] using this.symm
  | cons a rest =>
    have : memList x (sortByStart (l.filter (fun i => !i.is_empty))) ↔ memList x l := by
      rw [memList_sortByStart, memList_filter_nonempty]
    rw [hs, memList_cons] at this
    rw [memList_mergeRun, this]

theorem filter_length_pos_iff {p : ContiguousIntegerSet → Bool}
    {l : List ContiguousIntegerSet} :
    0 < (l.filter p).length ↔ ∃ i ∈ l, p i = true := by
  induction l with
  | nil => simp
  | cons a rest ih =>
    rw [List.filter_cons]
    by_cases h : p a <;> simp [h, ih]

theorem head_getD_mem {p : ContiguousIntegerSet → Bool} {l : List ContiguousIntegerSet}
    (h : (l.head?.map p).getD false = true) : ∃ i ∈ l, p i = true := by
  cases l with
  | nil => simp at h
  | cons a rest => exact ⟨a, by simp, by simpa using h⟩

theorem getLast_getD_mem {p : ContiguousIntegerSet → Bool} {l : List ContiguousIntegerSet}
    (h : (l.getLast?.map p).getD false = true) : ∃ i ∈ l, p i = true := by
  induction l with
  | nil => simp at h
  | cons a rest ih =>
    cases rest with
    | nil => exact ⟨a, by simp, by simpa [List.getLast?] using h⟩
    | cons b bs =>
      rw [List.getLast?_cons_cons] at h
      rcases ih h with ⟨i, hi, hp⟩
      exact ⟨i, by simp [hi], hp⟩

/-- `OrderedIntegerSet::contains` holds exactly when some member interval
contains the item. -/
theorem ois_contains_iff {s : OrderedIntegerSet} {x : Int} :
    s.contains x = true ↔ memList x s.intervals := by
  unfold OrderedIntegerSet.contains
  constructor
  · intro h
    split at h
    · exact head_getD_mem (by assumption)
    · split at h
      · exact getLast_getD_mem (by assumption)
      · exact filter_length_pos_iff.mp (by simpa using h)
  · intro hex
    split
    · rfl
    · split
      · rfl
      · simpa using filter_length_pos_iff.mpr hex

theorem fromVec_contains {v : List ContiguousIntegerSet} {x : Int} :
    (OrderedIntegerSet.fromVec v).contains x = true ↔ memList x v := by
  rw [ois_contains_iff]
  exact memList_coalesceIntervalsList

theorem from_contiguous_contains {v : List ContiguousIntegerSet} {x : Int} :
    (OrderedIntegerSet.from_contiguous_integer_sets v).contains x = true ↔ memList x v := by
  rw [ois_contains_iff]
  exact memList_coalesceIntervalsList

/-! ### Denotation of subtraction -/

/-- `[a,b] - [c,d]` denotes exactly the set difference. -/
theorem sub_cis_contains {a b : ContiguousIntegerSet} {x : Int} :
    (a.sub b).contains x = true ↔ a.contains x = true ∧ b.contains x = false := by
  unfold ContiguousIntegerSet.sub
  by_cases hab : (a.is_empty || b.is_empty) = true
  · rw [if_pos hab, fromVec_contains]
    have hm : memList x [a] ↔ a.contains x = true := by simp [memList]
    rw [hm]
    rcases Bool.or_eq_true_iff.mp hab with hea | heb
    · rw [empty_not_contains hea]
      simp
    · rw [empty_not_contains heb]
      simp
  · rw [if_neg hab]
    rw [Bool.or_eq_true_iff, not_or, Bool.not_eq_true, Bool.not_eq_true] at hab
    rcases hab with ⟨hea, heb⟩
    rw [ois_contains_iff]
    unfold OrderedIntegerSet.into_non_empty_intervals OrderedIntegerSet.fromVec
    simp only
    rw [memList_filter_nonempty, memList_coalesceIntervalsList]
    rw [is_empty_false_iff] at hea heb
    simp only [memList_cons, memList_nil, or_false, contains_iff]
    have hb : b.contains x = false ↔ ¬(b.start ≤ x ∧ x ≤ b.stop) := by
      rw [← contains_iff]
      cases b.contains x <;> simp
    rw [hb]
    omega

theorem subCAux_mem {l : List ContiguousIntegerSet} {r : ContiguousIntegerSet} {x : Int} :
    memList x (OrderedIntegerSet.subCAux l r) ↔ memList x l ∧ r.contains x = false := by
  induction l with
  | nil => simp [OrderedIntegerSet.subCAux, memList]
  | cons i rest ih =>
    unfold OrderedIntegerSet.subCAux
    rw [memList_append, memList_cons, ih]
    have : memList x (i.sub r).intervals ↔ (i.sub r).contains x = true := ois_contains_iff.symm
    rw [this, sub_cis_contains]
    tauto

/-- `OrderedIntegerSet - &ContiguousIntegerSet` denotes the set difference. -/
theorem subContiguous_contains {s : OrderedIntegerSet} {r : ContiguousIntegerSet} {x : Int} :
    (s.subContiguous r).contains x = true ↔
      memList x s.intervals ∧ r.contains x = false := by
  unfold OrderedIntegerSet.subContiguous
  rw [fromVec_contains, subCAux_mem]

/-- `ContiguousIntegerSet::intersect` denotes exactly the intersection. -/
theorem intersect_mem {a b : ContiguousIntegerSet} {x : Int} :
    (∃ i, a.intersect b = some i ∧ i.contains x = true) ↔
      (a.contains x = true ∧ b.contains x = true) := by
  unfold ContiguousIntegerSet.intersect
  by_cases hc : (a.is_empty || b.is_empty || decide (b.stop < a.start)
      || decide (b.start > a.stop)) = true
  · rw [if_pos hc]
    constructor
    · rintro ⟨i, hi, _⟩
      cases hi
    rintro ⟨ha, hb⟩
    exfalso
    rw [contains_iff] at ha hb
    simp only [Bool.or_eq_true, is_empty_iff, decide_eq_true_eq] at hc
    omega
  · rw [if_neg hc]
    constructor
    · rintro ⟨i, hi, hcx⟩
      rw [Option.some.injEq] at hi
      subst hi
      rw [contains_iff] at hcx
      simp only at hcx
      constructor <;> rw [contains_iff] <;> omega
    · rintro ⟨ha, hb⟩
      refine ⟨_, rfl, ?_⟩
      rw [contains_iff] at ha hb ⊢
      simp only
      omega

/-- C2 (claim): subtraction partition law for `ClosedRange`s: the elements of
`A.sub(B)` together with those of `A.intersect(B)` are exactly the elements of
`A`, and the two parts are disjoint. -/
theorem sub_intersect_partition (A B : ContiguousIntegerSet) (x : Int) :
    (((A.sub B).contains x = true ∨
        (∃ i, A.intersect B = some i ∧ i.contains x = true)) ↔ A.contains x = true)
    ∧ ¬((A.sub B).contains x = true ∧
        (∃ i, A.intersect B = some i ∧ i.contains x = true)) := by
  rw [sub_cis_contains, intersect_mem]
  constructor
  · constructor
    · rintro (⟨h, _⟩ | ⟨h, _⟩) <;> exact h
    · intro h
      cases hb : B.contains x
      · exact Or.inl ⟨h, rfl⟩
      · exact Or.inr ⟨h, rfl⟩
  · rintro ⟨⟨_, hbf⟩, ⟨_, hbt⟩⟩
    rw [hbf] at hbt
    cases hbt

/-- C1 (claim, refuted): iterating a fresh `to_iter` over the non-empty range
`[2,4]` yields `[0,1,2,3,4]`, beginning at `0` rather than at `start = 2` and
emitting the integers `0` and `1` that are not in the set: the iterator is
initialized with `current = E::zero()` (line 187) and `next` compares `current`
against `end` only (line 195). -/
theorem contiguous_iter_yields_from_zero :
    (ContiguousIntegerSet.mk 2 4).to_iter.toList = [0, 1, 2, 3, 4] ∧
      (ContiguousIntegerSet.mk 2 4).to_iter.toList ≠ [2, 3, 4] := by
  constructor
  · rfl
  · decide

theorem bool_eq_of_iff {a b : Bool} (h : a = true ↔ b = true) : a = b := by
  cases a <;> cases b <;> simp_all

theorem coalesceIntervalsList_pair {p1 p2 : ContiguousIntegerSet}
    (hle : p1.start ≤ p2.start)
    (hgap : p1.is_empty = false → p2.is_empty = false → p1.coalesce_with p2 = none) :
    coalesceIntervalsList [p1, p2] = [p1, p2].filter (fun i => !i.is_empty) := by
  unfold coalesceIntervalsList
  by_cases e1 : p1.is_empty = true <;> by_cases e2 : p2.is_empty = true
  · simp [List.filter_cons, e1, e2, sortByStart]
  · simp [List.filter_cons, e1, e2, sortByStart, insertByStart, mergeRun]
  · simp [List.filter_cons, e1, e2, sortByStart, insertByStart, mergeRun]
  · have hnone := hgap (by simpa using e1) (by simpa using e2)
    simp [List.filter_cons, e1, e2, sortByStart, insertByStart, mergeRun, hle, hnone]

/-- C3 (claim): for `[a,b] - [c,d]`: when either operand is empty the result
denotes `[a,b]` unchanged; otherwise the resulting interval sequence is exactly
the non-empty ranges among `[a, min(b, c-1)]` and `[max(d+1, a), b]`, in that
(ascending) order; in particular `[2,10] - [4,9] = {[2,3],[10,10]}`. -/
theorem contiguous_sub_contiguous_spec (A B : ContiguousIntegerSet) :
    ((A.is_empty || B.is_empty) = true → ∀ x, (A.sub B).contains x = A.contains x)
    ∧ (A.is_empty = false → B.is_empty = false →
        (A.sub B).intervals =
          [ContiguousIntegerSet.mk A.start (min A.stop (B.start - 1)),
           ContiguousIntegerSet.mk (max (B.stop + 1) A.start) A.stop].filter
            (fun i => !i.is_empty))
    ∧ ((ContiguousIntegerSet.mk 2 10).sub ⟨4, 9⟩).intervals = [⟨2, 3⟩, ⟨10, 10⟩] := by
  refine ⟨?_, ?_, by decide⟩
  · intro hAB x
    apply bool_eq_of_iff
    rw [sub_cis_contains]
    rcases Bool.or_eq_true_iff.mp hAB with hA | hB
    · rw [empty_not_contains hA]
      simp
    · rw [empty_not_contains hB]
      simp
  · intro hA hB
    have hA' := is_empty_false_iff.mp hA
    have hB' := is_empty_false_iff.mp hB
    unfold ContiguousIntegerSet.sub
    rw [if_neg (by simp [hA, hB])]
    unfold OrderedIntegerSet.into_non_empty_intervals OrderedIntegerSet.fromVec
    simp only
    rw [coalesceIntervalsList_pair (by simp)
      (fun h1 h2 => coalesce_with_none_of_gap h1 h2
        (by rw [is_empty_false_iff] at h1 h2; simp only at *; omega))]
    rw [List.filter_filter]
    simp

/-- Witness for C3 at concrete inputs: an empty left operand, and the split
case `[2,10] - [6,8]`. -/
theorem contiguous_sub_contiguous_spec_witness :
    ((ContiguousIntegerSet.mk 6 5).sub ⟨1, 3⟩).contains 6
        = (ContiguousIntegerSet.mk 6 5).contains 6
      ∧ ((ContiguousIntegerSet.mk 2 10).sub ⟨6, 8⟩).intervals = [⟨2, 5⟩, ⟨9, 10⟩] := by
  constructor
  · exact (contiguous_sub_contiguous_spec ⟨6, 5⟩ ⟨1, 3⟩).1 (by decide) 6
  · have h := (contiguous_sub_contiguous_spec ⟨2, 10⟩ ⟨6, 8⟩).2.1 (by decide) (by decide)
    rw [h]
    decide

/-! ### Canonical form of coalesced lists -/

theorem chainGapsB_cons_cons {a b : ContiguousIntegerSet} {l : List ContiguousIntegerSet} :
    chainGapsB (a :: b :: l) = true ↔ a.stop + 1 < b.start ∧ chainGapsB (b :: l) = true := by
  simp [chainGapsB]

theorem sortedByStartB_cons_cons {a b : ContiguousIntegerSet} {l : List ContiguousIntegerSet} :
    sortedByStartB (a :: b :: l) = true ↔ a.start ≤ b.start ∧ sortedByStartB (b :: l) = true := by
  simp [sortedByStartB]

theorem chain_pairwise {a : ContiguousIntegerSet} {l : List ContiguousIntegerSet}
    (hc : chainGapsB (a :: l) = true) (hne : allNonempty (a :: l)) :
    ∀ b ∈ l, a.stop + 1 < b.start := by
  induction l generalizing a with
  | nil => simp
  | cons c rest ih =>
    rcases chainGapsB_cons_cons.mp hc with ⟨hac, hcrest⟩
    intro b hb
    rcases List.mem_cons.mp hb with rfl | hb'
    · omega
    · have hcs : c.start ≤ c.stop := is_empty_false_iff.mp (hne c (by simp))
      have := ih hcrest (fun i hi => hne i (List.mem_cons_of_mem _ hi)) b hb'
      omega

theorem mem_insertByStart {i a : ContiguousIntegerSet} {l : List ContiguousIntegerSet} :
    i ∈ insertByStart a l ↔ i = a ∨ i ∈ l := by
  induction l with
  | nil => simp [insertByStart]
  | cons b rest ih =>
    unfold insertByStart
    by_cases h : a.start ≤ b.start <;> simp [h, ih] <;> tauto

theorem mem_sortByStart {i : ContiguousIntegerSet} {l : List ContiguousIntegerSet} :
    i ∈ sortByStart l ↔ i ∈ l := by
  induction l with
  | nil => simp [sortByStart]
  | cons a rest ih => simp [sortByStart, mem_insertByStart, ih]

theorem sorted_insertByStart {l : List ContiguousIntegerSet}
    (hl : sortedByStartB l = true) (a : ContiguousIntegerSet) :
    sortedByStartB (insertByStart a l) = true := by
  induction l with
  | nil => simp [insertByStart, sortedByStartB]
  | cons b rest ih =>
    unfold insertByStart
    by_cases h : a.start ≤ b.start
    · rw [if_pos h]
      exact sortedByStartB_cons_cons.mpr ⟨h, hl⟩
    · rw [if_neg h]
      cases rest with
      | nil => simp [insertByStart, sortedByStartB]; omega
      | cons c rest2 =>
        rcases sortedByStartB_cons_cons.mp hl with ⟨hbc, hcrest⟩
        have ih' := ih hcrest
        unfold insertByStart at ih' ⊢
        by_cases h2 : a.start ≤ c.start
        · rw [if_pos h2] at ih' ⊢
          exact sortedByStartB_cons_cons.mpr ⟨by omega, ih'⟩
        · rw [if_neg h2] at ih' ⊢
          exact sortedByStartB_cons_cons.mpr ⟨hbc, ih'⟩

theorem sorted_sortByStart (l : List ContiguousIntegerSet) :
    sortedByStartB (sortByStart l) = true := by
  induction l with
  | nil => simp [sortByStart, sortedByStartB]
  | cons a rest ih => exact sorted_insertByStart ih a

theorem coalesce_some_fields {a b m : ContiguousIntegerSet}
    (hea : a.is_empty = false) (heb : b.is_empty = false)
    (h : a.coalesce_with b = some m) :
    m.start = min a.start b.start ∧ m.stop = max a.stop b.stop := by
  unfold ContiguousIntegerSet.coalesce_with at h
  simp [hea, heb] at h
  rcases h with ⟨-, h2⟩
  subst h2
  simp

theorem coalesce_none_conds {a b : ContiguousIntegerSet}
    (hea : a.is_empty = false) (heb : b.is_empty = false)
    (h : a.coalesce_with b = none) :
    a.start > b.stop + 1 ∨ a.stop + 1 < b.start := by
  unfold ContiguousIntegerSet.coalesce_with at h
  simp [hea, heb] at h
  omega

theorem sorted_replace_head {i h : ContiguousIntegerSet} {rest : List ContiguousIntegerSet}
    (hs : sortedByStartB (i :: rest) = true) (hle : h.start ≤ i.start) :
    sortedByStartB (h :: rest) = true := by
  cases rest with
  | nil => simp [sortedByStartB]
  | cons c rest2 =>
    rcases sortedByStartB_cons_cons.mp hs with ⟨hic, hrest⟩
    exact sortedByStartB_cons_cons.mpr ⟨by omega, hrest⟩

theorem mergeRun_canonical {l : List ContiguousIntegerSet} : ∀ {cur : ContiguousIntegerSet},
    sortedByStartB (cur :: l) = true → allNonempty (cur :: l) →
    allNonempty (mergeRun cur l) ∧ chainGapsB (mergeRun cur l) = true ∧
      ∃ h rest, mergeRun cur l = h :: rest ∧ h.start = cur.start := by
  induction l with
  | nil =>
    intro cur hs hne
    refine ⟨?_, by simp [mergeRun, chainGapsB], cur, [], by simp [mergeRun], rfl⟩
    intro i hi
    rw [mergeRun] at hi
    simp at hi
    subst hi
    exact hne _ (by simp)
  | cons i rest ih =>
    intro cur hs hne
    have hcur : cur.is_empty = false := hne cur (by simp)
    have hi : i.is_empty = false := hne i (by simp)
    rcases sortedByStartB_cons_cons.mp hs with ⟨hci, hirest⟩
    unfold mergeRun
    cases hm : cur.coalesce_with i with
    | some m =>
      have hmne : m.is_empty = false := coalesce_with_nonempty hm
      rcases coalesce_some_fields hcur hi hm with ⟨hms, _⟩
      have hmstart : m.start = cur.start := by rw [hms]; omega
      have hsm : sortedByStartB (m :: rest) = true := by
        apply sorted_replace_head hirest
        omega
      have hnem : allNonempty (m :: rest) := by
        intro j hj
        rcases List.mem_cons.mp hj with rfl | hj'
        · exact hmne
        · exact hne j (by simp [hj'])
      rcases ih hsm hnem with ⟨h1, h2, h, hrest, hmr, hhs⟩
      exact ⟨h1, h2, h, hrest, hmr, by omega⟩
    | none =>
      have hirest' : allNonempty (i :: rest) := fun j hj => hne j (List.mem_cons_of_mem _ hj)
      rcases ih hirest hirest' with ⟨h1, h2, h, hrest2, hmr, hhs⟩
      have hgap : cur.stop + 1 < i.start := by
        rcases coalesce_none_conds hcur hi hm with hg | hg
        · rw [is_empty_false_iff] at hi
          omega
        · exact hg
      refine ⟨?_, ?_, cur, mergeRun i rest, rfl, rfl⟩
      · intro j hj
        rcases List.mem_cons.mp hj with rfl | hj'
        · exact hcur
        · exact h1 j hj'
      · rw [hmr]
        rw [hmr] at h2
        exact chainGapsB_cons_cons.mpr ⟨by omega, h2⟩

/-- The spec-modelled canonicalization always produces a canonical interval
list: all intervals non-empty, sorted with genuine gaps. -/
theorem coalesceIntervalsList_canonical (l : List ContiguousIntegerSet) :
    allNonempty (coalesceIntervalsList l) ∧
      chainGapsB (coalesceIntervalsList l) = true := by
  unfold coalesceIntervalsList
  cases hs : sortByStart (l.filter (fun i => !i.is_empty)) with
  | nil => exact ⟨by simp [allNonempty], by simp [chainGapsB]⟩
  | cons a rest =>
    have hsorted : sortedByStartB (a :: rest) = true := by
      rw [← hs]
      exact sorted_sortByStart _
    have hne : allNonempty (a :: rest) := by
      intro j hj
      rw [← hs] at hj
      rw [mem_sortByStart, List.mem_filter] at hj
      simpa using hj.2
    rcases mergeRun_canonical hsorted hne with ⟨h1, h2, -⟩
    exact ⟨h1, h2⟩

theorem chain_implies_sorted {l : List ContiguousIntegerSet}
    (hc : chainGapsB l = true) (hne : allNonempty l) :
    sortedByStartB l = true := by
  induction l with
  | nil => simp [sortedByStartB]
  | cons a rest ih =>
    cases rest with
    | nil => simp [sortedByStartB]
    | cons b rest2 =>
      rcases chainGapsB_cons_cons.mp hc with ⟨hab, hbrest⟩
      have ha : a.start ≤ a.stop := is_empty_false_iff.mp (hne a (by simp))
      exact sortedByStartB_cons_cons.mpr
        ⟨by omega, ih hbrest (fun j hj => hne j (List.mem_cons_of_mem _ hj))⟩

theorem filter_nonempty_eq_self {l : List ContiguousIntegerSet} (hne : allNonempty l) :
    l.filter (fun i => !i.is_empty) = l := by
  induction l with
  | nil => rfl
  | cons a rest ih =>
    have ha := hne a (by simp)
    rw [List.filter_cons, ih (fun j hj => hne j (List.mem_cons_of_mem _ hj)), ha]
    rfl

theorem sortByStart_eq_self {l : List ContiguousIntegerSet}
    (hs : sortedByStartB l = true) : sortByStart l = l := by
  induction l with
  | nil => rfl
  | cons a rest ih =>
    unfold sortByStart
    cases rest with
    | nil => simp [insertByStart]
    | cons b rest2 =>
      rcases sortedByStartB_cons_cons.mp hs with ⟨hab, hbrest⟩
      rw [ih hbrest]
      unfold insertByStart
      rw [if_pos hab]

theorem mergeRun_eq_self {l : List ContiguousIntegerSet} : ∀ {cur : ContiguousIntegerSet},
    chainGapsB (cur :: l) = true → allNonempty (cur :: l) →
    mergeRun cur l = cur :: l := by
  induction l with
  | nil => intro cur _ _; simp [mergeRun]
  | cons i rest ih =>
    intro cur hc hne
    rcases chainGapsB_cons_cons.mp hc with ⟨hci, hirest⟩
    have hcur : cur.is_empty = false := hne cur (by simp)
    have hi : i.is_empty = false := hne i (by simp)
    unfold mergeRun
    rw [coalesce_with_none_of_gap hcur hi hci]
    rw [ih hirest (fun j hj => hne j (List.mem_cons_of_mem _ hj))]

/-- Canonicalizing an already-canonical list is the identity. -/
theorem coalesceIntervalsList_eq_self {l : List ContiguousIntegerSet}
    (hc : chainGapsB l = true) (hne : allNonempty l) :
    coalesceIntervalsList l = l := by
  unfold coalesceIntervalsList
  rw [filter_nonempty_eq_self hne, sortByStart_eq_self (chain_implies_sorted hc hne)]
  cases l with
  | nil => rfl
  | cons a rest => exact mergeRun_eq_self hc hne

/-! ### Collect -/

theorem coalesce_with_point_mem {s m : ContiguousIntegerSet} {p : Int}
    (h : s.coalesce_with_point p = some m) (x : Int) :
    m.contains x = true ↔ s.contains x = true ∨ x = p := by
  unfold ContiguousIntegerSet.coalesce_with_point at h
  by_cases he : s.is_empty = true
  · rw [if_pos he, Option.some.injEq] at h
    subst h
    rw [empty_not_contains he, contains_iff]
    simp only [Bool.false_eq_true, false_or]
    omega
  · rw [if_neg he] at h
    rw [Bool.not_eq_true, is_empty_false_iff] at he
    by_cases hc : (decide (s.start > p + 1) || decide (s.stop + 1 < p)) = true
    · rw [if_pos hc] at h
      cases h
    · rw [if_neg hc, Option.some.injEq] at h
      subst h
      simp only [Bool.or_eq_true, decide_eq_true_eq, not_or] at hc
      rw [contains_iff, contains_iff]
      simp only
      omega

theorem coalesce_with_point_none {s : ContiguousIntegerSet} {p : Int}
    (h : s.coalesce_with_point p = none) :
    s.is_empty = false ∧ (s.start > p + 1 ∨ s.stop + 1 < p) := by
  unfold ContiguousIntegerSet.coalesce_with_point at h
  by_cases he : s.is_empty = true
  · rw [if_pos he] at h
    cases h
  · rw [if_neg he] at h
    rw [Bool.not_eq_true] at he
    refine ⟨he, ?_⟩
    by_cases hc : (decide (s.start > p + 1) || decide (s.stop + 1 < p)) = true
    · simpa using hc
    · rw [if_neg hc] at h
      cases h

theorem memList_collectScan {l : List ContiguousIntegerSet} {p x : Int} :
    memList x (OrderedIntegerSet.collectScan l p) ↔ memList x l ∨ x = p := by
  induction l with
  | nil =>
    unfold OrderedIntegerSet.collectScan
    rw [memList_cons]
    simp [memList, contains_iff]
    omega
  | cons interval rest ih =>
    unfold OrderedIntegerSet.collectScan
    by_cases h1 : p + 1 < interval.start
    · rw [if_pos h1, memList_cons, memList_cons]
      have hpp : (ContiguousIntegerSet.mk p p).contains x = true ↔ x = p := by
        rw [contains_iff]; simp only; omega
      rw [hpp]
      tauto
    · rw [if_neg h1]
      cases hcp : interval.coalesce_with_point p with
      | none =>
        dsimp only
        rw [memList_cons, ih, memList_cons]
        tauto
      | some newInterval =>
        dsimp only
        have hmem := coalesce_with_point_mem hcp x
        cases rest with
        | nil =>
          dsimp only
          rw [memList_cons, memList_cons]
          simp only [memList_nil, or_false]
          rw [hmem]
        | cons next rest2 =>
          dsimp only
          cases hm2 : newInterval.coalesce_with next with
          | some merged =>
            dsimp only
            rw [memList_cons, coalesce_with_mem hm2, hmem, memList_cons, memList_cons]
            tauto
          | none =>
            dsimp only
            simp only [memList_cons]
            rw [hmem]
            tauto

theorem getLast?_mem {l : List ContiguousIntegerSet} {a : ContiguousIntegerSet}
    (h : l.getLast? = some a) : a ∈ l := by
  induction l with
  | nil => cases h
  | cons b rest ih =>
    cases rest with
    | nil =>
      simp [List.getLast?] at h
      simp [h]
    | cons c rest2 =>
      rw [List.getLast?_cons_cons] at h
      exact List.mem_cons_of_mem _ (ih h)

theorem getLast?_decomp {l : List ContiguousIntegerSet} {a : ContiguousIntegerSet}
    (h : l.getLast? = some a) : l = l.dropLast ++ [a] := by
  induction l with
  | nil => cases h
  | cons b rest ih =>
    cases rest with
    | nil =>
      simp [List.getLast?] at h
      simp [h]
    | cons c rest2 =>
      rw [List.getLast?_cons_cons] at h
      have := ih h
      rw [List.dropLast_cons₂, List.cons_append, ← this]

/-- `collect` always denotes the previous set plus the collected point
(no canonicality hypothesis needed). -/
theorem collect_mem {s : OrderedIntegerSet} {p x : Int} :
    memList x (s.collect p).intervals ↔ memList x s.intervals ∨ x = p := by
  unfold OrderedIntegerSet.collect
  cases hl : s.intervals.getLast? with
  | none =>
    cases hnil : s.intervals with
    | nil => simp only [hnil, memList_collectScan]
    | cons a rest =>
      rw [hnil] at hl
      rw [List.getLast?_eq_none_iff] at hl
      cases hl
  | some last_interval =>
    dsimp only
    have hdecomp := getLast?_decomp hl
    by_cases h1 : p > last_interval.stop + 1
    · rw [if_pos h1]
      dsimp only
      simp only [memList_append, memList_cons, memList_nil, or_false]
      have hpp : (ContiguousIntegerSet.mk p p).contains x = true ↔ x = p := by
        rw [contains_iff]; simp only; omega
      rw [hpp]
    · rw [if_neg h1]
      cases hcp : last_interval.coalesce_with_point p with
      | some interval =>
        dsimp only
        conv_rhs => rw [hdecomp]
        rw [memList_append, memList_append, memList_cons, memList_cons]
        simp only [memList_nil, or_false]
        rw [coalesce_with_point_mem hcp x]
        tauto
      | none => exact memList_collectScan

theorem takeWhile_all_dropWhile_nil {pred : ContiguousIntegerSet → Bool}
    {l : List ContiguousIntegerSet} (h : ∀ i ∈ l, pred i = true) :
    l.takeWhile pred = l ∧ l.dropWhile pred = [] := by
  induction l with
  | nil => simp
  | cons a rest ih =>
    have ha := h a (by simp)
    rw [List.takeWhile_cons, List.dropWhile_cons, ha]
    have := ih (fun j hj => h j (List.mem_cons_of_mem _ hj))
    simp [this.1, this.2]

theorem collectScan_no_absorb {l : List ContiguousIntegerSet} {p : Int}
    (hno : ∀ i ∈ l, i.coalesce_with_point p = none) :
    OrderedIntegerSet.collectScan l p =
      l.takeWhile (fun i => !decide (p + 1 < i.start)) ++
        ⟨p, p⟩ :: l.dropWhile (fun i => !decide (p + 1 < i.start)) := by
  induction l with
  | nil => simp [OrderedIntegerSet.collectScan]
  | cons interval rest ih =>
    unfold OrderedIntegerSet.collectScan
    rw [List.takeWhile_cons, List.dropWhile_cons]
    by_cases h1 : p + 1 < interval.start
    · rw [if_pos h1]
      simp [h1]
    · rw [if_neg h1, hno interval (by simp)]
      dsimp only
      rw [ih (fun j hj => hno j (List.mem_cons_of_mem _ hj))]
      simp [h1]

theorem start_le_last_stop {l : List ContiguousIntegerSet}
    (hc : chainGapsB l = true) (hne : allNonempty l)
    {last : ContiguousIntegerSet} (hl : l.getLast? = some last) :
    ∀ i ∈ l, i.start ≤ last.stop := by
  induction l with
  | nil => simp
  | cons a rest ih =>
    intro i hi
    cases rest with
    | nil =>
      simp [List.getLast?] at hl
      simp at hi
      subst hl hi
      exact is_empty_false_iff.mp (hne i (by simp))
    | cons b rest2 =>
      rw [List.getLast?_cons_cons] at hl
      have hlast_mem : last ∈ b :: rest2 := getLast?_mem hl
      have hlast_ne : last.is_empty = false := hne last (List.mem_cons_of_mem _ hlast_mem)
      rcases List.mem_cons.mp hi with rfl | hi'
      · have hpair := chain_pairwise hc hne last hlast_mem
        have : i.start ≤ i.stop := is_empty_false_iff.mp (hne i (by simp))
        have : last.start ≤ last.stop := is_empty_false_iff.mp hlast_ne
        omega
      · exact ih (chainGapsB_cons_cons.mp hc).2
          (fun j hj => hne j (List.mem_cons_of_mem _ hj)) hl i hi'

/-- `collect` with no absorbing interval inserts a singleton at the sorted
position (for canonical sets). -/
theorem collect_no_absorb {s : OrderedIntegerSet} {p : Int}
    (hcan : s.canonicalB = true)
    (hno : ∀ i ∈ s.intervals, i.coalesce_with_point p = none) :
    (s.collect p).intervals =
      s.intervals.takeWhile (fun i => !decide (p + 1 < i.start)) ++
        ⟨p, p⟩ :: s.intervals.dropWhile (fun i => !decide (p + 1 < i.start)) := by
  rcases Bool.and_eq_true_iff.mp hcan with ⟨hne', hchain⟩
  have hne : allNonempty s.intervals := by
    intro j hj
    have := List.all_eq_true.mp hne' j hj
    simpa using this
  unfold OrderedIntegerSet.collect
  cases hl : s.intervals.getLast? with
  | none => exact collectScan_no_absorb hno
  | some last_interval =>
    dsimp only
    by_cases h1 : p > last_interval.stop + 1
    · rw [if_pos h1]
      dsimp only
      have hall : ∀ i ∈ s.intervals, (fun i => !decide (p + 1 < i.start)) i = true := by
        intro i hi
        have := start_le_last_stop hchain hne hl i hi
        simp only [Bool.not_eq_true']
        rw [decide_eq_false_iff_not]
        omega
      rcases takeWhile_all_dropWhile_nil hall with ⟨ht, hd⟩
      rw [ht, hd]
    · rw [if_neg h1]
      rw [hno last_interval (getLast?_mem hl)]
      exact collectScan_no_absorb hno

/-- C6 (claim, refuted): the canonical set `{[0,0],[2,3]}` (built by
`from_slice`) becomes non-canonical after `collect(1)`: the fast path coalesces
`1` into the last interval, producing `[[0,0],[1,3]]`, in which
`end_0 + 1 = start_1`, i.e. two adjacent coalesceable intervals remain. -/
theorem collect_fast_path_breaks_canonical_form :
    (OrderedIntegerSet.from_slice [(0, 0), (2, 3)]).canonicalB = true
    ∧ ((OrderedIntegerSet.from_slice [(0, 0), (2, 3)]).collect 1).intervals
        = [⟨0, 0⟩, ⟨1, 3⟩]
    ∧ ((OrderedIntegerSet.from_slice [(0, 0), (2, 3)]).collect 1).canonicalB = false := by
  decide

/-- C8 (claim): the collect scenario from the spec holds; in general,
`collect(p)` makes the set denote its previous integers plus `p`; and when no
existing interval can absorb `p`, a singleton `[p,p]` is inserted at the
correct sorted position. -/
theorem collect_spec :
    (((((((((OrderedIntegerSet.from_slice [(1, 3), (5, 7), (15, 20)]).collect (-5)).collect
        (-1)).collect 0).collect (-10)).collect 4).collect 10).collect 12).collect 13).intervals
      = [⟨-10, -10⟩, ⟨-5, -5⟩, ⟨-1, 7⟩, ⟨10, 10⟩, ⟨12, 13⟩, ⟨15, 20⟩]
    ∧ (∀ (S : OrderedIntegerSet) (p x : Int),
        (S.collect p).contains x = (S.contains x || decide (x = p)))
    ∧ (∀ (S : OrderedIntegerSet) (p : Int), S.canonicalB = true →
        (∀ i ∈ S.intervals, i.coalesce_with_point p = none) →
        (S.collect p).intervals =
          S.intervals.takeWhile (fun i => !decide (p + 1 < i.start)) ++
            ⟨p, p⟩ :: S.intervals.dropWhile (fun i => !decide (p + 1 < i.start))) := by
  refine ⟨by decide, ?_, ?_⟩
  · intro S p x
    apply bool_eq_of_iff
    rw [ois_contains_iff, collect_mem, Bool.or_eq_true, ois_contains_iff, decide_eq_true_eq]
  · intro S p hcan hno
    exact collect_no_absorb hcan hno

/-- Witness for C8: the denotation law at `{[1,3]}`, `collect(10)`, element `2`,
and the sorted-insertion law at `{[1,3],[7,9]}`, `collect(5)`. -/
theorem collect_spec_witness :
    ((OrderedIntegerSet.from_slice [(1, 3)]).collect 10).contains 2
      = ((OrderedIntegerSet.from_slice [(1, 3)]).contains 2 || decide ((2 : Int) = 10))
    ∧ ((OrderedIntegerSet.from_slice [(1, 3), (7, 9)]).collect 5).intervals
      = (OrderedIntegerSet.from_slice [(1, 3), (7, 9)]).intervals.takeWhile
          (fun i => !decide ((5 : Int) + 1 < i.start)) ++
        ⟨5, 5⟩ :: (OrderedIntegerSet.from_slice [(1, 3), (7, 9)]).intervals.dropWhile
          (fun i => !decide ((5 : Int) + 1 < i.start)) := by
  constructor
  · exact collect_spec.2.1 (OrderedIntegerSet.from_slice [(1, 3)]) 10 2
  · exact collect_spec.2.2 (OrderedIntegerSet.from_slice [(1, 3), (7, 9)]) 5
      (by decide) (by decide)

/-- C7 (counterexample): with both operands empty (`[1,0]`), the
overlap-or-adjacent condition `a.end+1 >= b.start and b.end+1 >= a.start` holds
(`0+1 >= 1`), and the claim also says an empty operand yields the other operand
unchanged "including the case where both operands are empty"; but the code
returns `None` (line 140-141). -/
theorem coalesce_both_empty_counterexample :
    (ContiguousIntegerSet.mk 1 0).is_empty = true
    ∧ ((ContiguousIntegerSet.mk 1 0).stop + 1 ≥ (ContiguousIntegerSet.mk 1 0).start)
    ∧ (ContiguousIntegerSet.mk 1 0).coalesce_with ⟨1, 0⟩ = none := by
  refine ⟨by decide, by decide, by decide⟩

/-- C7 (amended): `coalesce_with` merges two non-empty ranges into the single
range covering both iff they overlap or are adjacent, returns `None` on a
genuine gap; when exactly one operand is empty it returns the other operand
unchanged; when both operands are empty it returns `None`. -/
theorem coalesce_with_spec_amended (a b : ContiguousIntegerSet) :
    (a.is_empty = true → b.is_empty = true → a.coalesce_with b = none)
    ∧ (a.is_empty = true → b.is_empty = false → a.coalesce_with b = some b)
    ∧ (a.is_empty = false → b.is_empty = true → a.coalesce_with b = some a)
    ∧ (a.is_empty = false → b.is_empty = false →
        a.coalesce_with b =
          if a.stop + 1 ≥ b.start ∧ b.stop + 1 ≥ a.start then
            some ⟨min a.start b.start, max a.stop b.stop⟩
          else none)
    ∧ (∀ m, a.coalesce_with b = some m → ∀ x : Int,
        m.contains x = (a.contains x || b.contains x)) := by
  refine ⟨?_, ?_, ?_, ?_, ?_⟩
  · intro ha hb
    unfold ContiguousIntegerSet.coalesce_with
    simp [ha, hb]
  · intro ha hb
    unfold ContiguousIntegerSet.coalesce_with
    simp [ha, hb]
  · intro ha hb
    unfold ContiguousIntegerSet.coalesce_with
    simp [ha, hb]
  · intro ha hb
    unfold ContiguousIntegerSet.coalesce_with
    simp only [ha, hb, Bool.and_self, Bool.false_and, Bool.and_false, if_false,
      Bool.false_eq_true]
    by_cases hc : a.stop + 1 ≥ b.start ∧ b.stop + 1 ≥ a.start
    · rw [if_pos hc, if_neg]
      simp only [Bool.or_eq_true, decide_eq_true_eq]
      omega
    · rw [if_neg hc, if_pos]
      simp only [Bool.or_eq_true, decide_eq_true_eq]
      omega
  · intro m hm x
    apply bool_eq_of_iff
    rw [coalesce_with_mem hm, Bool.or_eq_true]

/-- Witness for C7 (amended) at concrete inputs: empty-with-non-empty, and two
adjacent non-empty ranges. -/
theorem coalesce_with_spec_amended_witness :
    (ContiguousIntegerSet.mk 1 0).coalesce_with ⟨2, 5⟩ = some ⟨2, 5⟩
    ∧ (ContiguousIntegerSet.mk 1 3).coalesce_with ⟨4, 5⟩ =
        (if (3 : Int) + 1 ≥ 4 ∧ (5 : Int) + 1 ≥ 1 then
          some ⟨min (1 : Int) 4, max (3 : Int) 5⟩
        else none) := by
  constructor
  · exact (coalesce_with_spec_amended ⟨1, 0⟩ ⟨2, 5⟩).2.1 (by decide) (by decide)
  · exact (coalesce_with_spec_amended ⟨1, 3⟩ ⟨4, 5⟩).2.2.2.1 (by decide) (by decide)

/-! ### Slicing -/

theorem intIter_length {s : Int} {n : Nat} : (intIter s n).length = n := by
  induction n generalizing s with
  | zero => rfl
  | succ n ih => simp [intIter, ih]

theorem intIter_drop : ∀ (n k : Nat) (s : Int), (intIter s n).drop k = intIter (s + k) (n - k) := by
  intro n
  induction n with
  | zero => intro k s; simp [intIter]
  | succ n ih =>
    intro k s
    cases k with
    | zero => simp [intIter]
    | succ k =>
      rw [intIter, List.drop_succ_cons, ih k (s + 1)]
      congr 1
      · push_cast
        ring
      · omega

theorem intIter_take : ∀ (n m : Nat) (s : Int), (intIter s n).take m = intIter s (min m n) := by
  intro n
  induction n with
  | zero => intro m s; simp [intIter]
  | succ n ih =>
    intro m s
    cases m with
    | zero => simp [intIter]
    | succ m =>
      rw [intIter, List.take_succ_cons, ih m (s + 1)]
      have : min (m + 1) (n + 1) = min m n + 1 := by omega
      rw [this, intIter]

theorem mem_intIter {x s : Int} : ∀ {n : Nat}, x ∈ intIter s n ↔ s ≤ x ∧ x < s + n := by
  intro n
  induction n generalizing s with
  | zero => simp [intIter]
  | succ n ih =>
    rw [intIter, List.mem_cons, ih]
    constructor
    · rintro (rfl | ⟨h1, h2⟩) <;> constructor <;> omega
    · rintro ⟨h1, h2⟩
      by_cases hx : x = s
      · exact Or.inl hx
      · right; constructor <;> omega

theorem size_eq_toNat {i : ContiguousIntegerSet} (h : i.is_empty = false) :
    (i.stop - i.start + 1).toNat = i.size := by
  simp [ContiguousIntegerSet.size, h]

theorem size_pos_of_nonempty {i : ContiguousIntegerSet} (h : i.is_empty = false) :
    0 < i.size := by
  unfold ContiguousIntegerSet.size
  rw [if_neg (by simp [h])]
  rw [is_empty_false_iff] at h
  omega

theorem size_mk {a b : Int} (h : a ≤ b) :
    (ContiguousIntegerSet.mk a b).size = (b - a + 1).toNat := by
  unfold ContiguousIntegerSet.size
  rw [if_neg]
  simp [ContiguousIntegerSet.is_empty]
  omega

theorem iterConcat_cons {i : ContiguousIntegerSet} {l : List ContiguousIntegerSet} :
    OrderedIntegerSet.iterConcat (i :: l) =
      intIter i.start i.size ++ OrderedIntegerSet.iterConcat l := rfl

theorem mem_iterConcat {x : Int} {l : List ContiguousIntegerSet} :
    x ∈ OrderedIntegerSet.iterConcat l ↔ memList x l := by
  induction l with
  | nil => simp [OrderedIntegerSet.iterConcat, memList]
  | cons i rest ih =>
    rw [iterConcat_cons, List.mem_append, ih, memList_cons, mem_intIter, contains_iff]
    by_cases he : i.is_empty = true
    · rw [is_empty_iff] at he
      have : i.size = 0 := by simp [ContiguousIntegerSet.size, is_empty_iff.mpr he]
      rw [this]
      constructor
      · rintro (⟨h1, h2⟩ | h) <;> [omega; exact Or.inr h]
      · rintro (⟨h1, h2⟩ | h) <;> [omega; exact Or.inr h]
    · rw [Bool.not_eq_true] at he
      have hsz : (i.size : Int) = i.stop - i.start + 1 := by
        rw [← size_eq_toNat he]
        rw [is_empty_false_iff] at he
        omega
      rw [hsz]
      constructor
      · rintro (⟨h1, h2⟩ | h) <;> [exact Or.inl ⟨h1, by omega⟩; exact Or.inr h]
      · rintro (⟨h1, h2⟩ | h) <;> [exact Or.inl ⟨h1, by omega⟩; exact Or.inr h]

theorem length_iterConcat {l : List ContiguousIntegerSet} :
    (OrderedIntegerSet.iterConcat l).length = (l.map (fun i => i.size)).sum := by
  induction l with
  | nil => rfl
  | cons i rest ih => simp [iterConcat_cons, intIter_length, ih]

theorem cis_slice_some {i : ContiguousIntegerSet} {lo hi : Nat}
    (h1 : lo < hi) (h2 : lo < i.size) :
    i.slice lo hi = some ⟨i.start + lo, i.start + hi - 1⟩ := by
  unfold ContiguousIntegerSet.slice
  rw [if_neg]
  push_neg
  exact ⟨h1, h2⟩

/-- Core slicing lemma: the loop of the `OrderedIntegerSet` slicer yields
exactly the window `[skip, skip + remaining)` of the full iteration sequence. -/
theorem sliceLoop_iter {l : List ContiguousIntegerSet} : ∀ (_hne : allNonempty l)
    (skip remaining : Nat),
    OrderedIntegerSet.iterConcat (OrderedIntegerSet.sliceLoop l skip remaining)
      = ((OrderedIntegerSet.iterConcat l).drop skip).take remaining := by
  induction l with
  | nil => intro _ skip remaining; simp [OrderedIntegerSet.sliceLoop, OrderedIntegerSet.iterConcat]
  | cons interval rest ih =>
    intro hne skip remaining
    have hie : interval.is_empty = false := hne _ (by simp)
    have hne' : allNonempty rest := fun j hj => hne j (List.mem_cons_of_mem _ hj)
    have hsz : (interval.stop - interval.start + 1).toNat = interval.size := size_eq_toNat hie
    have hszpos : 0 < interval.size := size_pos_of_nonempty hie
    unfold OrderedIntegerSet.sliceLoop
    by_cases hr : remaining = 0
    · simp [hr, OrderedIntegerSet.iterConcat]
    · rw [if_neg hr, hsz]
      rw [iterConcat_cons, List.drop_append_eq_append_drop, intIter_length, intIter_drop]
      by_cases hskip : skip > 0
      · rw [if_pos hskip]
        by_cases hss : skip ≥ interval.size
        · rw [if_pos hss, ih hne' (skip - interval.size) remaining]
          rw [show interval.size - skip = 0 from by omega, intIter]
          simp
        · rw [if_neg hss]
          have hstp : skip < min (skip + remaining) interval.size := by omega
          have hslice := cis_slice_some (i := interval) hstp (show skip < interval.size by omega)
          simp only [hslice, List.singleton_append]
          rw [iterConcat_cons, ih hne' 0 _, List.drop_zero]
          rw [show skip - interval.size = 0 from by omega, List.drop_zero]
          rw [List.take_append_eq_append_take, intIter_take, intIter_length]
          dsimp only
          rw [size_mk (by omega)]
          congr 1
          · congr 1
            omega
          · congr 1
            omega
      · rw [if_neg hskip]
        have hskip0 : skip = 0 := by omega
        subst hskip0
        have hinc : (0 : Nat) < min remaining interval.size := by omega
        have hslice := cis_slice_some (i := interval) hinc hszpos
        simp only [hslice, List.singleton_append]
        rw [iterConcat_cons, ih hne' 0 _, List.drop_zero]
        rw [show (0 : Nat) - interval.size = 0 from by omega, List.drop_zero]
        rw [List.take_append_eq_append_take, intIter_take, intIter_length]
        dsimp only
        rw [size_mk (by omega)]
        congr 1
        · congr 1
          omega
        · congr 1
          omega

theorem chainGapsB_tail {a : ContiguousIntegerSet} {l : List ContiguousIntegerSet}
    (h : chainGapsB (a :: l) = true) : chainGapsB l = true := by
  cases l with
  | nil => rfl
  | cons b rest => exact (chainGapsB_cons_cons.mp h).2

/-- The slicer's loop produces a canonical piece list, every piece lying inside
a source interval. -/
theorem sliceLoop_pieces {l : List ContiguousIntegerSet} : ∀ (_hne : allNonempty l)
    (_hch : chainGapsB l = true) (skip remaining : Nat),
    allNonempty (OrderedIntegerSet.sliceLoop l skip remaining)
    ∧ chainGapsB (OrderedIntegerSet.sliceLoop l skip remaining) = true
    ∧ ∀ piece ∈ OrderedIntegerSet.sliceLoop l skip remaining,
        ∃ I ∈ l, I.start ≤ piece.start ∧ piece.stop ≤ I.stop := by
  induction l with
  | nil =>
    intro _ _ skip remaining
    refine ⟨by simp [OrderedIntegerSet.sliceLoop, allNonempty], by rfl, by
      simp [OrderedIntegerSet.sliceLoop]⟩
  | cons interval rest ih =>
    intro hne hch skip remaining
    have hie : interval.is_empty = false := hne _ (by simp)
    have hne' : allNonempty rest := fun j hj => hne j (List.mem_cons_of_mem _ hj)
    have hch' : chainGapsB rest = true := chainGapsB_tail hch
    have hsz : (interval.stop - interval.start + 1).toNat = interval.size := size_eq_toNat hie
    have hszpos : 0 < interval.size := size_pos_of_nonempty hie
    have hie' : interval.start ≤ interval.stop := is_empty_false_iff.mp hie
    unfold OrderedIntegerSet.sliceLoop
    by_cases hr : remaining = 0
    · refine ⟨by simp [hr, allNonempty], by simp [hr]; rfl, by simp [hr]⟩
    · rw [if_neg hr, hsz]
      by_cases hskip : skip > 0
      · rw [if_pos hskip]
        by_cases hss : skip ≥ interval.size
        · rw [if_pos hss]
          rcases ih hne' hch' (skip - interval.size) remaining with ⟨h1, h2, h3⟩
          refine ⟨h1, h2, fun piece hp => ?_⟩
          rcases h3 piece hp with ⟨I, hI, hb⟩
          exact ⟨I, List.mem_cons_of_mem _ hI, hb⟩
        · rw [if_neg hss]
          have hstp : skip < min (skip + remaining) interval.size := by omega
          have hslice := cis_slice_some (i := interval) hstp (show skip < interval.size by omega)
          simp only [hslice, List.singleton_append]
          rcases ih hne' hch' 0 (remaining - (min (skip + remaining) interval.size - skip))
            with ⟨h1, h2, h3⟩
          have hpne : (ContiguousIntegerSet.mk (interval.start + (skip : Int))
              (interval.start + ((min (skip + remaining) interval.size : Nat) : Int) - 1)).is_empty
                = false := by
            rw [is_empty_false_iff]
            simp only
            omega
          have hpbound : interval.start ≤ interval.start + (skip : Int)
              ∧ interval.start + ((min (skip + remaining) interval.size : Nat) : Int) - 1
                  ≤ interval.stop := by
            constructor
            · omega
            · omega
          refine ⟨?_, ?_, ?_⟩
          · intro j hj
            rcases List.mem_cons.mp hj with rfl | hj'
            · exact hpne
            · exact h1 j hj'
          · cases hout : OrderedIntegerSet.sliceLoop rest 0
                (remaining - (min (skip + remaining) interval.size - skip)) with
            | nil => rfl
            | cons q0 qs =>
              rw [hout] at h2 h3
              apply chainGapsB_cons_cons.mpr
              refine ⟨?_, h2⟩
              rcases h3 q0 (by simp) with ⟨Iq, hIq, hq1, hq2⟩
              have hpair := chain_pairwise hch hne Iq hIq
              simp only
              omega
          · intro piece hp
            rcases List.mem_cons.mp hp with rfl | hp'
            · exact ⟨interval, by simp, hpbound.1, hpbound.2⟩
            · rcases h3 piece hp' with ⟨I, hI, hb⟩
              exact ⟨I, List.mem_cons_of_mem _ hI, hb⟩
      · rw [if_neg hskip]
        have hskip0 : skip = 0 := by omega
        subst hskip0
        have hinc : (0 : Nat) < min remaining interval.size := by omega
        have hslice := cis_slice_some (i := interval) hinc hszpos
        simp only [hslice, List.singleton_append]
        rcases ih hne' hch' 0 (remaining - min remaining interval.size) with ⟨h1, h2, h3⟩
        have hpne : (ContiguousIntegerSet.mk (interval.start + ((0 : Nat) : Int))
            (interval.start + ((min remaining interval.size : Nat) : Int) - 1)).is_empty
              = false := by
          rw [is_empty_false_iff]
          simp only
          omega
        have hpbound : interval.start ≤ interval.start + ((0 : Nat) : Int)
            ∧ interval.start + ((min remaining interval.size : Nat) : Int) - 1
                ≤ interval.stop := by
          constructor
          · omega
          · omega
        refine ⟨?_, ?_, ?_⟩
        · intro j hj
          rcases List.mem_cons.mp hj with rfl | hj'
          · exact hpne
          · exact h1 j hj'
        · cases hout : OrderedIntegerSet.sliceLoop rest 0 (remaining - min remaining interval.size)
              with
          | nil => rfl
          | cons q0 qs =>
            rw [hout] at h2 h3
            apply chainGapsB_cons_cons.mpr
            refine ⟨?_, h2⟩
            rcases h3 q0 (by simp) with ⟨Iq, hIq, hq1, hq2⟩
            have hpair := chain_pairwise hch hne Iq hIq
            simp only
            omega
        · intro piece hp
          rcases List.mem_cons.mp hp with rfl | hp'
          · exact ⟨interval, by simp, hpbound.1, hpbound.2⟩
          · rcases h3 piece hp' with ⟨I, hI, hb⟩
            exact ⟨I, List.mem_cons_of_mem _ hI, hb⟩

theorem canonicalB_parts {s : OrderedIntegerSet} (h : s.canonicalB = true) :
    allNonempty s.intervals ∧ chainGapsB s.intervals = true := by
  rcases Bool.and_eq_true_iff.mp h with ⟨h1, h2⟩
  exact ⟨fun j hj => by simpa using List.all_eq_true.mp h1 j hj, h2⟩

theorem ois_size_eq_length (s : OrderedIntegerSet) : s.size = s.toIterList.length := by
  unfold OrderedIntegerSet.size OrderedIntegerSet.toIterList
  rw [length_iterConcat]

theorem iterConcat_nil {out : List ContiguousIntegerSet} (hne : allNonempty out)
    (h : OrderedIntegerSet.iterConcat out = []) : out = [] := by
  cases out with
  | nil => rfl
  | cons i rest =>
    exfalso
    rw [iterConcat_cons] at h
    have hpos := size_pos_of_nonempty (hne i (by simp))
    have := intIter_length (s := i.start) (n := i.size)
    cases hI : intIter i.start i.size with
    | nil => rw [hI] at this; simp at this; omega
    | cons y ys => rw [hI] at h; cases h

/-- C5 (claim): slicing law: for canonical `S` and valid rank range `[lo, hi)`
with `hi <= S.size()`, iterating `S.slice(lo..hi)` yields exactly the elements
at ranks `lo..hi` of `S`'s full iteration order, and the slice's size is
`hi - lo`. -/
theorem slice_rank_law (S : OrderedIntegerSet) (hcan : S.canonicalB = true)
    (lo hi : Nat) (h1 : lo < hi) (h2 : hi ≤ S.size) :
    (S.slice lo hi).toIterList = (S.toIterList.drop lo).take (hi - lo)
    ∧ (S.slice lo hi).size = hi - lo := by
  rcases canonicalB_parts hcan with ⟨hne, hch⟩
  have hout := sliceLoop_pieces hne hch lo (hi - lo)
  have hiter := sliceLoop_iter hne lo (hi - lo)
  have hid := coalesceIntervalsList_eq_self hout.2.1 hout.1
  unfold OrderedIntegerSet.slice
  rw [if_neg (by omega)]
  unfold OrderedIntegerSet.from_contiguous_integer_sets
  constructor
  · show OrderedIntegerSet.iterConcat _ = _
    rw [hid, hiter]
    rfl
  · rw [ois_size_eq_length]
    show (OrderedIntegerSet.iterConcat _).length = _
    rw [hid, hiter, List.length_take, List.length_drop]
    have hlen : (OrderedIntegerSet.iterConcat S.intervals).length = S.size :=
      (ois_size_eq_length S).symm
    rw [hlen]
    omega

/-- Witness for C5 at `S = {[2,4],[6,7]}`, ranks `1..4`. -/
theorem slice_rank_law_witness :
    ((OrderedIntegerSet.from_slice [(2, 4), (6, 7)]).slice 1 4).toIterList
        = (((OrderedIntegerSet.from_slice [(2, 4), (6, 7)]).toIterList).drop 1).take (4 - 1)
    ∧ ((OrderedIntegerSet.from_slice [(2, 4), (6, 7)]).slice 1 4).size = 4 - 1 :=
  slice_rank_law (OrderedIntegerSet.from_slice [(2, 4), (6, 7)]) (by decide) 1 4
    (by decide) (by decide)

/-- C9 (claim): slicing with an invalid rank range is not an error: `lo >= hi`
yields the empty set immediately; `lo >= S.size()` (for a canonical set) yields
the empty set; the single-range slicer returns `None` whenever `lo >= hi` or
`lo` is out of bounds; and `ClosedRange(1,12).slice(0..0)` is empty. -/
theorem slice_invalid_rank_empty :
    (∀ (S : OrderedIntegerSet) (lo hi : Nat), lo ≥ hi → S.slice lo hi = OrderedIntegerSet.new)
    ∧ (∀ S : OrderedIntegerSet, S.canonicalB = true → ∀ lo hi : Nat, lo ≥ S.size →
        S.slice lo hi = OrderedIntegerSet.new)
    ∧ (∀ (I : ContiguousIntegerSet) (lo hi : Nat), lo ≥ hi ∨ lo ≥ I.size →
        I.slice lo hi = none)
    ∧ (ContiguousIntegerSet.mk 1 12).slice 0 0 = none := by
  refine ⟨?_, ?_, ?_, by decide⟩
  · intro S lo hi h
    unfold OrderedIntegerSet.slice
    rw [if_pos h]
  · intro S hcan lo hi h
    by_cases hlh : lo ≥ hi
    · unfold OrderedIntegerSet.slice
      rw [if_pos hlh]
    · rcases canonicalB_parts hcan with ⟨hne, hch⟩
      have hiter := sliceLoop_iter hne lo (hi - lo)
      have hout := sliceLoop_pieces hne hch lo (hi - lo)
      have hlen : (OrderedIntegerSet.iterConcat S.intervals).length = S.size :=
        (ois_size_eq_length S).symm
      have hnil : OrderedIntegerSet.sliceLoop S.intervals lo (hi - lo) = [] := by
        apply iterConcat_nil hout.1
        rw [hiter, List.drop_eq_nil_of_le (by omega)]
        simp
      unfold OrderedIntegerSet.slice
      rw [if_neg hlh]
      unfold OrderedIntegerSet.from_contiguous_integer_sets
      rw [hnil]
      rfl
  · intro I lo hi h
    unfold ContiguousIntegerSet.slice
    rw [if_pos h]

/-- Witness for C9: an out-of-bounds start rank on a two-interval set, and way
out-of-bounds ranks on a single range. -/
theorem slice_invalid_rank_empty_witness :
    (OrderedIntegerSet.from_slice [(1, 3)]).slice 7 9 = OrderedIntegerSet.new
    ∧ (OrderedIntegerSet.from_slice [(1, 3)]).slice 5 2 = OrderedIntegerSet.new
    ∧ (ContiguousIntegerSet.mk 1 12).slice 20 25 = none := by
  refine ⟨?_, ?_, ?_⟩
  · exact slice_invalid_rank_empty.2.1 (OrderedIntegerSet.from_slice [(1, 3)]) (by decide)
      7 9 (by decide)
  · exact slice_invalid_rank_empty.1 (OrderedIntegerSet.from_slice [(1, 3)]) 5 2 (by decide)
  · exact slice_invalid_rank_empty.2.2.1 (ContiguousIntegerSet.mk 1 12) 20 25
      (Or.inr (by decide))

/-- C10 (claim): for canonical `S` and `lo < hi` with `lo < S.size() < hi`,
the slice is silently truncated at the end of the set: it yields exactly ranks
`lo..S.size()`, never fails, and never produces integers outside `S`. -/
theorem slice_truncated_at_end (S : OrderedIntegerSet) (hcan : S.canonicalB = true)
    (lo hi : Nat) (h1 : lo < hi) (h2 : lo < S.size) (h3 : hi > S.size) :
    (S.slice lo hi).toIterList = S.toIterList.drop lo
    ∧ (S.slice lo hi).size = S.size - lo
    ∧ ∀ x : Int, (S.slice lo hi).contains x = true → S.contains x = true := by
  rcases canonicalB_parts hcan with ⟨hne, hch⟩
  have hout := sliceLoop_pieces hne hch lo (hi - lo)
  have hiter := sliceLoop_iter hne lo (hi - lo)
  have hid := coalesceIntervalsList_eq_self hout.2.1 hout.1
  have hlen : (OrderedIntegerSet.iterConcat S.intervals).length = S.size :=
    (ois_size_eq_length S).symm
  have hfirst : (S.slice lo hi).toIterList = S.toIterList.drop lo := by
    unfold OrderedIntegerSet.slice
    rw [if_neg (by omega)]
    unfold OrderedIntegerSet.from_contiguous_integer_sets
    show OrderedIntegerSet.iterConcat _ = _
    rw [hid, hiter, List.take_of_length_le]
    · rfl
    · rw [List.length_drop, hlen]
      omega
  refine ⟨hfirst, ?_, ?_⟩
  · rw [ois_size_eq_length, hfirst]
    show (List.drop lo (OrderedIntegerSet.iterConcat S.intervals)).length = _
    rw [List.length_drop, hlen]
  · intro x hx
    rw [ois_contains_iff] at hx ⊢
    have hx1 : x ∈ (S.slice lo hi).toIterList := mem_iterConcat.mpr hx
    rw [hfirst] at hx1
    exact mem_iterConcat.mp (List.drop_subset _ _ hx1)

/-- Witness for C10 at `S = {[2,4],[6,7]}`, ranks `2..40`. -/
theorem slice_truncated_at_end_witness :
    ((OrderedIntegerSet.from_slice [(2, 4), (6, 7)]).slice 2 40).toIterList
        = ((OrderedIntegerSet.from_slice [(2, 4), (6, 7)]).toIterList).drop 2
    ∧ ((OrderedIntegerSet.from_slice [(2, 4), (6, 7)]).slice 2 40).size
        = (OrderedIntegerSet.from_slice [(2, 4), (6, 7)]).size - 2
    ∧ ∀ x : Int, ((OrderedIntegerSet.from_slice [(2, 4), (6, 7)]).slice 2 40).contains x = true →
        (OrderedIntegerSet.from_slice [(2, 4), (6, 7)]).contains x = true :=
  slice_truncated_at_end (OrderedIntegerSet.from_slice [(2, 4), (6, 7)]) (by decide)
    2 40 (by decide) (by decide) (by decide)

/-! ### Set-minus-set: the cursor sweep -/

theorem dropWhile_decomp (p : ContiguousIntegerSet → Bool) (l : List ContiguousIntegerSet) :
    ∃ pre, l = pre ++ l.dropWhile p ∧ ∀ a ∈ pre, p a = true := by
  induction l with
  | nil => exact ⟨[], rfl, by simp⟩
  | cons a rest ih =>
    rw [List.dropWhile_cons]
    by_cases h : p a = true
    · rw [if_pos h]
      rcases ih with ⟨pre, hpre, hall⟩
      refine ⟨a :: pre, by rw [List.cons_append, ← hpre], ?_⟩
      intro j hj
      rcases List.mem_cons.mp hj with rfl | hj'
      · exact h
      · exact hall j hj'
    · rw [if_neg h]
      exact ⟨[], rfl, by simp⟩

theorem chainGapsB_append_right {pre suf : List ContiguousIntegerSet}
    (h : chainGapsB (pre ++ suf) = true) : chainGapsB suf = true := by
  induction pre with
  | nil => exact h
  | cons a rest ih => exact ih (chainGapsB_tail h)

theorem subtractLoop_spec {rs : List ContiguousIntegerSet} : ∀ {d : OrderedIntegerSet}
    {istop : Int},
    chainGapsB rs = true → allNonempty rs →
    (∀ x : Int, d.contains x = true → x ≤ istop) →
    (∀ x : Int, (OrderedIntegerSet.subtractLoop d rs istop).1.contains x = true ↔
        (d.contains x = true ∧ ¬ memList x rs))
    ∧ ∃ pre, rs = pre ++ (OrderedIntegerSet.subtractLoop d rs istop).2
        ∧ ∀ r ∈ pre, r.stop ≤ istop := by
  induction rs with
  | nil =>
    intro d istop _ _ _
    constructor
    · intro x
      unfold OrderedIntegerSet.subtractLoop
      simp [memList_nil]
    · exact ⟨[], rfl, by simp⟩
  | cons r rest ih =>
    intro d istop hch hne hd
    have hrne : r.is_empty = false := hne r (by simp)
    have hrs : r.start ≤ r.stop := is_empty_false_iff.mp hrne
    have hch' : chainGapsB rest = true := chainGapsB_tail hch
    have hne' : allNonempty rest := fun j hj => hne j (List.mem_cons_of_mem _ hj)
    unfold OrderedIntegerSet.subtractLoop
    by_cases h1 : r.stop ≤ istop
    · rw [if_pos h1]
      have hd' : ∀ y : Int, (d.subContiguous r).contains y = true → y ≤ istop := by
        intro y hy
        rcases subContiguous_contains.mp hy with ⟨hm, -⟩
        exact hd y (ois_contains_iff.mpr hm)
      rcases ih hch' hne' hd' with ⟨hmem, pre, hpre, hprop⟩
      constructor
      · intro x
        rw [hmem x, subContiguous_contains, ← ois_contains_iff, memList_cons]
        constructor
        · rintro ⟨⟨hdx, hrx⟩, hrest⟩
          refine ⟨hdx, ?_⟩
          rintro (hr | hr)
          · rw [hr] at hrx; cases hrx
          · exact hrest hr
        · rintro ⟨hdx, hnot⟩
          refine ⟨⟨hdx, ?_⟩, fun hr => hnot (Or.inr hr)⟩
          cases hr : r.contains x with
          | false => rfl
          | true => exact absurd (Or.inl hr) hnot
      · refine ⟨r :: pre, ?_, ?_⟩
        · rw [List.cons_append, ← hpre]
        · intro j hj
          rcases List.mem_cons.mp hj with rfl | hj'
          · exact h1
          · exact hprop j hj'
    · rw [if_neg h1]
      by_cases h2 : r.start ≤ istop
      · rw [if_pos h2]
        constructor
        · intro x
          dsimp only
          rw [subContiguous_contains, ← ois_contains_iff, memList_cons]
          constructor
          · rintro ⟨hdx, hrx⟩
            refine ⟨hdx, ?_⟩
            rintro (hr | ⟨I, hI, hIx⟩)
            · rw [hr] at hrx; cases hrx
            · have hx := hd x hdx
              have hp := chain_pairwise hch hne I hI
              rw [contains_iff] at hIx
              omega
          · rintro ⟨hdx, hnot⟩
            refine ⟨hdx, ?_⟩
            cases hr : r.contains x with
            | false => rfl
            | true => exact absurd (Or.inl hr) hnot
        · exact ⟨[], rfl, by simp⟩
      · rw [if_neg h2]
        constructor
        · intro x
          dsimp only
          constructor
          · intro hdx
            refine ⟨hdx, ?_⟩
            have hx := hd x hdx
            rw [memList_cons]
            rintro (hr | ⟨I, hI, hIx⟩)
            · rw [contains_iff] at hr
              omega
            · have hp := chain_pairwise hch hne I hI
              rw [contains_iff] at hIx
              omega
          · rintro ⟨hdx, -⟩
            exact hdx
        · exact ⟨[], rfl, by simp⟩

/-- Denotation of the sweep: for canonical operands, the concatenated
differences denote exactly the set difference. -/
theorem subAux_mem {ls : List ContiguousIntegerSet} : ∀ {rhs : List ContiguousIntegerSet},
    chainGapsB ls = true → allNonempty ls → chainGapsB rhs = true → allNonempty rhs →
    ∀ x : Int, memList x (OrderedIntegerSet.subAux ls rhs) ↔
      (memList x ls ∧ ¬ memList x rhs) := by
  induction ls with
  | nil =>
    intro rhs _ _ _ _ x
    unfold OrderedIntegerSet.subAux
    simp [memList_nil]
  | cons interval rest ihl =>
    intro rhs hchl hnel hchr hner x
    have hie : interval.is_empty = false := hnel interval (by simp)
    have hies : interval.start ≤ interval.stop := is_empty_false_iff.mp hie
    have hchl' := chainGapsB_tail hchl
    have hnel' : allNonempty rest := fun j hj => hnel j (List.mem_cons_of_mem _ hj)
    rcases dropWhile_decomp (fun r => decide (r.stop < interval.start)) rhs
      with ⟨pre1, hpre1, hall1⟩
    have hchr1 : chainGapsB (rhs.dropWhile (fun r => decide (r.stop < interval.start))) = true := by
      rw [hpre1] at hchr
      exact chainGapsB_append_right hchr
    have hner1 : allNonempty (rhs.dropWhile (fun r => decide (r.stop < interval.start))) := by
      intro j hj
      refine hner j ?_
      rw [hpre1]
      exact List.mem_append_right _ hj
    have hd0 : ∀ y : Int,
        (OrderedIntegerSet.from_contiguous_integer_sets [interval]).contains y = true ↔
          interval.contains y = true := by
      intro y
      rw [from_contiguous_contains]
      simp [memList]
    have hd0b : ∀ y : Int,
        (OrderedIntegerSet.from_contiguous_integer_sets [interval]).contains y = true →
          y ≤ interval.stop := by
      intro y hy
      have hc := (hd0 y).mp hy
      rw [contains_iff] at hc
      exact hc.2
    rcases subtractLoop_spec hchr1 hner1 hd0b with ⟨hmem, pre2, hpre2, hprop2⟩
    have hch2 : chainGapsB (OrderedIntegerSet.subtractLoop
        (OrderedIntegerSet.from_contiguous_integer_sets [interval])
        (rhs.dropWhile (fun r => decide (r.stop < interval.start))) interval.stop).2 = true := by
      rw [hpre2] at hchr1
      exact chainGapsB_append_right hchr1
    have hne2 : allNonempty (OrderedIntegerSet.subtractLoop
        (OrderedIntegerSet.from_contiguous_integer_sets [interval])
        (rhs.dropWhile (fun r => decide (r.stop < interval.start))) interval.stop).2 := by
      intro j hj
      refine hner1 j ?_
      rw [hpre2]
      exact List.mem_append_right _ hj
    have ihx := ihl hchl' hnel' hch2 hne2 x
    unfold OrderedIntegerSet.subAux
    simp only [memList_append]
    rw [← ois_contains_iff, hmem x, ihx, hd0 x, memList_cons]
    constructor
    · rintro (⟨hix, hnr1⟩ | ⟨hrx, hnp2⟩)
      · refine ⟨Or.inl hix, ?_⟩
        intro hmr
        rw [hpre1, memList_append] at hmr
        rcases hmr with ⟨rr, hrr, hrrx⟩ | hmr
        · have hd1 := hall1 rr hrr
          rw [decide_eq_true_eq] at hd1
          rw [contains_iff] at hrrx hix
          omega
        · exact hnr1 hmr
      · refine ⟨Or.inr hrx, ?_⟩
        intro hmr
        rcases hrx with ⟨I, hI, hIx⟩
        have hp := chain_pairwise hchl hnel I hI
        rw [contains_iff] at hIx
        rw [hpre1, memList_append] at hmr
        rcases hmr with ⟨rr, hrr, hrrx⟩ | hmr
        · have hd1 := hall1 rr hrr
          rw [decide_eq_true_eq] at hd1
          rw [contains_iff] at hrrx
          omega
        · rw [hpre2, memList_append] at hmr
          rcases hmr with ⟨rr, hrr, hrrx⟩ | hmr
          · have hd2 := hprop2 rr hrr
            rw [contains_iff] at hrrx
            omega
          · exact hnp2 hmr
    · rintro ⟨hin, hnr⟩
      rcases hin with hix | hrx
      · left
        refine ⟨hix, fun hm => hnr ?_⟩
        rw [hpre1, memList_append]
        exact Or.inr hm
      · right
        refine ⟨hrx, fun hm => hnr ?_⟩
        rw [hpre1, memList_append]
        right
        rw [hpre2, memList_append]
        exact Or.inr hm

/-- C4 (claim): for canonical `RangeSet`s `A` and `B`, `A - B` denotes exactly
the integers of `A` not in `B` (no gaps, no duplicate coverage: the result is
again canonical), and the concrete scenario
`from_pairs([[0,10],[15,20]]) - from_pairs([[-1,2],[5,7]])` yields
`{[3,4],[8,10],[15,20]}`. -/
theorem ordered_sub_ordered_spec (A B : OrderedIntegerSet)
    (hA : A.canonicalB = true) (hB : B.canonicalB = true) :
    (∀ x : Int, (A.sub B).contains x = (A.contains x && !B.contains x))
    ∧ (A.sub B).canonicalB = true
    ∧ ((OrderedIntegerSet.from_slice [(0, 10), (15, 20)]).sub
        (OrderedIntegerSet.from_slice [(-1, 2), (5, 7)])).intervals
        = [⟨3, 4⟩, ⟨8, 10⟩, ⟨15, 20⟩] := by
  rcases canonicalB_parts hA with ⟨hneA, hchA⟩
  rcases canonicalB_parts hB with ⟨hneB, hchB⟩
  refine ⟨?_, ?_, by decide⟩
  · intro x
    apply bool_eq_of_iff
    unfold OrderedIntegerSet.sub
    rw [from_contiguous_contains, subAux_mem hchA hneA hchB hneB x]
    simp only [← ois_contains_iff]
    cases hb : B.contains x <;> simp [hb]
  · have hcc := coalesceIntervalsList_canonical (OrderedIntegerSet.subAux A.intervals B.intervals)
    unfold OrderedIntegerSet.sub OrderedIntegerSet.from_contiguous_integer_sets
      OrderedIntegerSet.canonicalB
    apply Bool.and_eq_true_iff.mpr
    constructor
    · apply List.all_eq_true.mpr
      intro j hj
      simp [hcc.1 j hj]
    · exact hcc.2

/-- Witness for C4 at `A = {[1,10]}`, `B = {[2,3]}`, element `5`. -/
theorem ordered_sub_ordered_spec_witness :
    ((OrderedIntegerSet.from_slice [(1, 10)]).sub
        (OrderedIntegerSet.from_slice [(2, 3)])).contains 5
      = ((OrderedIntegerSet.from_slice [(1, 10)]).contains 5
          && !(OrderedIntegerSet.from_slice [(2, 3)]).contains 5)
    ∧ ((OrderedIntegerSet.from_slice [(1, 10)]).sub
        (OrderedIntegerSet.from_slice [(2, 3)])).canonicalB = true := by
  constructor
  · exact (ordered_sub_ordered_spec (OrderedIntegerSet.from_slice [(1, 10)])
      (OrderedIntegerSet.from_slice [(2, 3)]) (by decide) (by decide)).1 5
  · exact (ordered_sub_ordered_spec (OrderedIntegerSet.from_slice [(1, 10)])
      (OrderedIntegerSet.from_slice [(2, 3)]) (by decide) (by decide)).2.1

